import Mathlib

/-!
Verification of the tournament round & ranking engine of `speed_jong`.

The definitions below are shallow embeddings of the Python scripts under
`src/dev/`:

* `db_debug_olivia.py`  — score ledger and five-criteria ranking
* `db_auto_assign.py`   — table-assignment algorithms
* `db_start_round.py`   — round lifecycle `start`
* `db_add_win.py`       — win recording
* `db_simulate_games.py` — game simulation (win recording path)

Firestore documents are modelled as records; numeric document fields are
rationals (`ℚ`) except the integer `wins` counter (`ℤ`, since the stored
value is mutated by atomic increments and is not clamped); timestamps are
rationals (seconds since the epoch); optional document fields are
`Option`s.  Status fields are the literal strings the scripts compare
against.  Player names, which the scripts compare with Python's string
ordering (lexicographic by code point), are modelled as `List Char` —
which carries exactly that lexicographic order — so that the order is
kernel-computable.  Randomness (`random.shuffle`) is modelled by an explicit
`shuffle` function parameter, and theorems that need it assume only that
it permutes its input.
-/

deriving instance DecidableEq for Except

namespace SpeedJong

/-- A score event on a player's append-only ledger.  `roundNumber` is
optional because the stored documents can (defectively) lack it; the
scripts read it with `event.get('roundNumber')`. -/
structure ScoreEvent where
  delta : ℚ
  roundNumber : Option ℕ
deriving DecidableEq

/-- A participant snapshot stored under a round
(`db_start_round.py`, lines 86-97). -/
structure Participant where
  playerId : String
  name : List Char
  wins : ℤ
  points : ℚ
  tableId : Option String
  position : Option String
  lastWinAt : Option ℚ
  snapshotAt : ℚ
deriving DecidableEq

/-- A round document.  `scoreMultiplier` is optional because
`db_start_round.py` creates round documents without the field and the
readers default it to `1`.  The participants subcollection is embedded. -/
structure Round where
  rid : String
  roundNumber : ℕ
  scoreMultiplier : Option ℚ
  status : String
  startedAt : Option ℚ
  endedAt : Option ℚ
  participants : List Participant
deriving DecidableEq

/-- A player document. -/
structure Player where
  pid : String
  name : List Char
  wins : ℤ
  points : ℚ
  scoreEvents : List ScoreEvent
  lastWinAt : Option ℚ
  tableId : Option String
  position : Option String
  eliminated : Bool
deriving DecidableEq

/-- The tournament document fields the engine reads and writes. -/
structure Tournament where
  currentRound : ℕ
  roundInProgress : Bool
deriving DecidableEq

/-- A whole tournament state: the tournament document plus its `players`
and `rounds` collections (in stream order). -/
structure TournamentState where
  tournament : Tournament
  players : List Player
  rounds : List Round
deriving DecidableEq

/-! ## Score ledger (`db_debug_olivia.py`, lines 80-91 and 148-158) -/

/-- Multiplier lookup:
`rounds_map.get(event.get('roundNumber'), {}).get('scoreMultiplier', 1)`.
An event whose `roundNumber` is absent, or absent from the map, gets
multiplier `1`. -/
def multOf (m : List (ℕ × ℚ)) : Option ℕ → ℚ
  | none => 1
  | some n => (m.lookup n).getD 1

/-- The round-number → multiplier map built from the rounds collection
(`db_debug_olivia.py`, lines 63-74).  The list is reversed so that
`List.lookup` matches Python's dict semantics (last stream entry wins). -/
def roundsMult (s : TournamentState) : List (ℕ × ℚ) :=
  s.rounds.reverse.map (fun r => (r.roundNumber, r.scoreMultiplier.getD 1))

/-- `tournamentScore`: Σ over all events of `delta × multiplier[roundNumber]`
(`db_debug_olivia.py`, lines 148-151). -/
def tournamentScore (m : List (ℕ × ℚ)) (p : Player) : ℚ :=
  (p.scoreEvents.map (fun e => e.delta * multOf m e.roundNumber)).sum

/-- `roundScore` for a given round number: Σ over events tagged with that
round of `delta × multiplier[roundNumber]`
(`db_debug_olivia.py`, lines 153-158). -/
def roundScore (m : List (ℕ × ℚ)) (rn : ℕ) (p : Player) : ℚ :=
  ((p.scoreEvents.filter (fun e => e.roundNumber = some rn)).map
    (fun e => e.delta * multOf m (some rn))).sum

/-- Modelled from the spec: the `src` tree contains no writer of
`scoreEvents` (the recording scripts `db_add_win.py` and
`db_simulate_games.py` update only `wins`/`lastWinAt`, and
`db_fix_scoreevents.py` exists to repair events that were stored without a
`roundNumber`).  Spec §4.1 specifies the missing `appendScoreEvent`
operation: it enforces append-only semantics and rejects a write lacking a
`roundNumber`. -/
def appendScoreEvent (p : Player) (delta : ℚ) (rn : Option ℕ) :
    Except Unit Player :=
  match rn with
  | none => Except.error ()
  | some n =>
      Except.ok { p with scoreEvents := p.scoreEvents ++ [⟨delta, some n⟩] }

/-! ## Ranking (`db_debug_olivia.py`, lines 62-77 and 143-201) -/

/-- Most recently completed round number, `0` when none
(`db_debug_olivia.py`, lines 65-76). -/
def lastCompletedRound (s : TournamentState) : ℕ :=
  (s.rounds.filter (fun r => r.status = "completed")).foldl
    (fun acc r => max acc r.roundNumber) 0

/-- Dict-style lookup of a round document by round number (last stream
entry wins, as for a Python dict). -/
def findRound (s : TournamentState) (rn : ℕ) : Option Round :=
  s.rounds.reverse.find? (fun r => r.roundNumber = rn)

/-- `last_win.timestamp() if last_win else 0`
(`db_debug_olivia.py`, lines 161-162). -/
def lastWinKey (p : Player) : ℚ :=
  p.lastWinAt.getD 0

/-- Table round score of a player for the last completed round: the sum of
that round's scores over every player sharing the player's table, table
membership read from the round's participant snapshots
(`db_debug_olivia.py`, lines 164-192). -/
def tableRoundScore (s : TournamentState) (p : Player) : ℚ :=
  let lcr := lastCompletedRound s
  if lcr = 0 then 0
  else
    match findRound s lcr with
    | none => 0
    | some rd =>
        match rd.participants.find? (fun pa => pa.playerId = p.pid) with
        | none => 0
        | some pa =>
            match pa.tableId with
            | none => 0
            | some tid =>
                ((rd.participants.filter (fun q => q.tableId = some tid)).map
                  (fun q =>
                    match s.players.find? (fun pl => pl.pid = q.playerId) with
                    | none => 0
                    | some pl => roundScore (roundsMult s) lcr pl)).sum

/-- The sort key of `db_debug_olivia.py`, lines 195-201:
`(-tournamentScore, -roundScore, -lastWin, -tableRoundScore, name)`,
compared lexicographically. -/
def key5 (s : TournamentState) (p : Player) :
    ℚ ×ₗ ℚ ×ₗ ℚ ×ₗ ℚ ×ₗ List Char :=
  toLex (-(tournamentScore (roundsMult s) p),
    toLex (-(roundScore (roundsMult s) (lastCompletedRound s) p),
      toLex (-(lastWinKey p),
        toLex (-(tableRoundScore s p), p.name))))

/-- Comparison used by the ranking sort. -/
def rankLE (s : TournamentState) (p q : Player) : Prop :=
  key5 s p ≤ key5 s q

instance (s : TournamentState) : DecidableRel (rankLE s) := fun p q =>
  inferInstanceAs (Decidable (key5 s p ≤ key5 s q))

instance (s : TournamentState) : IsTotal Player (rankLE s) :=
  ⟨fun p q => le_total (key5 s p) (key5 s q)⟩

instance (s : TournamentState) : IsTrans Player (rankLE s) :=
  ⟨fun _ _ _ h h' => le_trans h h'⟩

/-- The non-eliminated players (`db_debug_olivia.py`, line 143). -/
def activePlayers (s : TournamentState) : List Player :=
  s.players.filter (fun p => !p.eliminated)

/-- The ranking output: the active players sorted by the five-part key
(`db_debug_olivia.py`, lines 195-201; Python's `sorted` is a
comparison sort by the key tuple). -/
def rankedPlayers (s : TournamentState) : List Player :=
  List.insertionSort (rankLE s) (activePlayers s)

/-- The ranking relation as §4.4 of the spec words it, with the third
criterion as the code implements it: players are compared by tournament
score (higher first), then by the last completed round's round score
(higher first), then by the last-win timestamp where a player who has
never won carries the sentinel timestamp `0` (more recent first), then by
table round score (higher first), then by name (alphabetical). -/
def specRankLT (s : TournamentState) (p q : Player) : Prop :=
  tournamentScore (roundsMult s) p > tournamentScore (roundsMult s) q ∨
  (tournamentScore (roundsMult s) p = tournamentScore (roundsMult s) q ∧
    (roundScore (roundsMult s) (lastCompletedRound s) p >
        roundScore (roundsMult s) (lastCompletedRound s) q ∨
      (roundScore (roundsMult s) (lastCompletedRound s) p =
          roundScore (roundsMult s) (lastCompletedRound s) q ∧
        (lastWinKey p > lastWinKey q ∨
          (lastWinKey p = lastWinKey q ∧
            (tableRoundScore s p > tableRoundScore s q ∨
              (tableRoundScore s p = tableRoundScore s q ∧
                p.name < q.name)))))))

instance (s : TournamentState) : DecidableRel (specRankLT s) := fun p q => by
  unfold specRankLT
  infer_instance

/-- "More recent last win first, players who have never won after all
players who have won" — the third criterion exactly as the claim words
it, on the optional timestamps. -/
def optTimeLT : Option ℚ → Option ℚ → Prop
  | some a, some b => b < a
  | some _, none => True
  | none, _ => False

instance : ∀ o₁ o₂, Decidable (optTimeLT o₁ o₂)
  | some a, some b => inferInstanceAs (Decidable (b < a))
  | some _, none => isTrue trivial
  | none, some _ => isFalse (fun h => h)
  | none, none => isFalse (fun h => h)

/-- Tie at the claim's third criterion: both players never won, or equal
timestamps. -/
def optTimeEq : Option ℚ → Option ℚ → Prop
  | none, none => True
  | some a, some b => a = b
  | _, _ => False

instance : ∀ o₁ o₂, Decidable (optTimeEq o₁ o₂)
  | some a, some b => inferInstanceAs (Decidable (a = b))
  | some _, none => isFalse (fun h => h)
  | none, some _ => isFalse (fun h => h)
  | none, none => isTrue trivial

/-- The ranking relation exactly as the claim words it: as `specRankLT`,
but with the third criterion comparing `lastWinAt` with players who have
never won sorting after all players who have. -/
def claimRankLT (s : TournamentState) (p q : Player) : Prop :=
  tournamentScore (roundsMult s) p > tournamentScore (roundsMult s) q ∨
  (tournamentScore (roundsMult s) p = tournamentScore (roundsMult s) q ∧
    (roundScore (roundsMult s) (lastCompletedRound s) p >
        roundScore (roundsMult s) (lastCompletedRound s) q ∨
      (roundScore (roundsMult s) (lastCompletedRound s) p =
          roundScore (roundsMult s) (lastCompletedRound s) q ∧
        (optTimeLT p.lastWinAt q.lastWinAt ∨
          (optTimeEq p.lastWinAt q.lastWinAt ∧
            (tableRoundScore s p > tableRoundScore s q ∨
              (tableRoundScore s p = tableRoundScore s q ∧
                p.name < q.name)))))))

instance (s : TournamentState) : DecidableRel (claimRankLT s) := fun p q => by
  unfold claimRankLT
  infer_instance

/-! ## Table assignment (`db_auto_assign.py`) -/

/-- `get_timestamp` of `db_auto_assign.py`, lines 23-27: the last-win
timestamp, `0` when unset. -/
def get_timestamp (p : Player) : ℚ :=
  p.lastWinAt.getD 0

/-- The sort key of `sort_players_by_ranking`
(`db_auto_assign.py`, lines 29-34):
`(-wins, -points, -get_timestamp(p), name)`, compared lexicographically. -/
def keyR (p : Player) : ℤ ×ₗ ℚ ×ₗ ℚ ×ₗ List Char :=
  toLex (-p.wins, toLex (-p.points, toLex (-(get_timestamp p), p.name)))

/-- Comparison used by `sort_players_by_ranking`. -/
def rankKeyLE (p q : Player) : Prop :=
  keyR p ≤ keyR q

instance : DecidableRel rankKeyLE := fun p q =>
  inferInstanceAs (Decidable (keyR p ≤ keyR q))

instance : IsTotal Player rankKeyLE :=
  ⟨fun p q => le_total (keyR p) (keyR q)⟩

instance : IsTrans Player rankKeyLE :=
  ⟨fun _ _ _ h h' => le_trans h h'⟩

/-- `sort_players_by_ranking` (`db_auto_assign.py`, lines 14-34). -/
def sort_players_by_ranking (players : List Player) : List Player :=
  List.insertionSort rankKeyLE players

/-- The slicing `[players[i*4:(i+1)*4] for i in range(num_tables)]`
(`db_auto_assign.py`, lines 47, 52, 67). -/
def chunksOf4 {α : Type} (T : ℕ) (l : List α) : List (List α) :=
  (List.range T).map (fun i => (l.drop (i * 4)).take 4)

/-- The round-robin distribution loop
(`db_auto_assign.py`, lines 58-61): `tables[i % num_tables].append(player)`
for each `i, player` in the enumerated sorted list. -/
def rrGo {α : Type} (T : ℕ) : ℕ → List α → List (List α) → List (List α)
  | _, [], tables => tables
  | i, x :: xs, tables =>
      rrGo T (i + 1) xs (tables.set (i % T) (tables.getD (i % T) [] ++ [x]))

/-- Round-robin groups: start from `num_tables` empty tables and
distribute the players (`db_auto_assign.py`, lines 58-62). -/
def distributeRoundRobin {α : Type} (T : ℕ) (l : List α) : List (List α) :=
  rrGo T 0 l (List.replicate T [])

/-- `assign_by_algorithm` (`db_auto_assign.py`, lines 36-67).  `shuffle`
models `random.shuffle` (an in-place permutation). -/
def assign_by_algorithm (shuffle : List Player → List Player)
    (algorithm : String) (players : List Player) : List (List Player) :=
  let num_tables := players.length / 4
  let players_to_assign := players.take (num_tables * 4)
  if algorithm = "random" then
    chunksOf4 num_tables (shuffle players_to_assign)
  else if algorithm = "ranking" then
    chunksOf4 num_tables (sort_players_by_ranking players_to_assign)
  else if algorithm = "round_robin" then
    distributeRoundRobin num_tables (sort_players_by_ranking players_to_assign)
  else
    chunksOf4 num_tables (shuffle players_to_assign)

/-- The round-1 guard of `auto_assign_players`
(`db_auto_assign.py`, lines 110-113): `ranking`/`round_robin` fall back to
`random` when `current_round <= 1`. -/
def effective_algorithm (current_round : ℕ) (algorithm : String) : String :=
  if current_round ≤ 1 ∧ (algorithm = "ranking" ∨ algorithm = "round_robin")
  then "random" else algorithm

/-- The table groups produced by `auto_assign_players`
(`db_auto_assign.py`, lines 110-132) for a given list of unassigned
players: the round-1 guard followed by `assign_by_algorithm`. -/
def auto_assign_groups (shuffle : List Player → List Player)
    (current_round : ℕ) (algorithm : String) (unassigned : List Player) :
    List (List Player) :=
  assign_by_algorithm shuffle (effective_algorithm current_round algorithm)
    unassigned

/-- The (1-based) ranked position of each member of `g` within the sorted
list `l`, summed — the measure of the round-robin dispersion property. -/
def rankPosSum (l : List Player) (g : List Player) : ℕ :=
  (g.map (fun x => l.indexOf x + 1)).sum

/-! ## Round lifecycle: `start` (`db_start_round.py`, lines 11-114) -/

/-- The participant snapshot written for an active player
(`db_start_round.py`, lines 86-97). -/
def snapshotOf (p : Player) (now : ℚ) : Participant :=
  { playerId := p.pid, name := p.name, wins := p.wins, points := p.points,
    tableId := p.tableId, position := p.position, lastWinAt := p.lastWinAt,
    snapshotAt := now }

/-- Append a participant to the round document with id `rid`. -/
def addParticipant (rid : String) (pa : Participant)
    (st : TournamentState) : TournamentState :=
  { st with rounds := st.rounds.map (fun r =>
      if r.rid = rid then { r with participants := r.participants ++ [pa] }
      else r) }

/-- The sequence of Firestore writes `start_round` performs after its
precondition checks (`db_start_round.py`, lines 69-105): create the round
document, then one participant snapshot per active player, then update the
tournament document.  The values written are computed from the state as it
was before the first write, as in the script. -/
def startRoundWrites (s : TournamentState) (now : ℚ) (rid : String) :
    List (TournamentState → TournamentState) :=
  let next := s.tournament.currentRound + 1
  (fun st => { st with rounds := st.rounds ++
      [{ rid := rid, roundNumber := next, scoreMultiplier := none,
         status := "in_progress", startedAt := some now, endedAt := none,
         participants := [] }] })
    :: (activePlayers s).map (fun p => addParticipant rid (snapshotOf p now))
    ++ [fun st => { st with tournament :=
          { currentRound := next, roundInProgress := true } }]

/-- Apply a sequence of writes in order. -/
def applyWrites (st : TournamentState)
    (ws : List (TournamentState → TournamentState)) : TournamentState :=
  ws.foldl (fun s f => f s) st

inductive StartError where
  | roundInProgress
  | noActivePlayers
  | notDivisibleBy4
deriving DecidableEq

/-- `start_round` (`db_start_round.py`, lines 11-114): precondition checks
(lines 27-58) followed by the write sequence.  The interactive
confirmation prompt is external to the engine and not modelled. -/
def start_round (s : TournamentState) (now : ℚ) (rid : String) :
    Except StartError TournamentState :=
  if s.tournament.roundInProgress then Except.error .roundInProgress
  else if (activePlayers s).length = 0 then Except.error .noActivePlayers
  else if (activePlayers s).length % 4 ≠ 0 then Except.error .notDivisibleBy4
  else Except.ok (applyWrites s (startRoundWrites s now rid))

/-- The state after only the first `k` writes of `start_round` have been
committed — what the database holds if the script dies partway through its
(non-transactional) write sequence. -/
def start_round_upto (s : TournamentState) (now : ℚ) (rid : String)
    (k : ℕ) : TournamentState :=
  applyWrites s ((startRoundWrites s now rid).take k)

/-! ## Win recording (`db_add_win.py`) -/

/-- Python `str.lower()` on a name. -/
def toLowerName (nm : List Char) : List Char :=
  nm.map Char.toLower

/-- Update the first list entry satisfying `pred` (the script breaks out
of its search loop at the first name match). -/
def updateFirst {α : Type} (pred : α → Bool) (f : α → α) :
    List α → List α
  | [] => []
  | p :: ps => if pred p then f p :: ps else p :: updateFirst pred f ps

/-- `add_win` (`db_add_win.py`, lines 10-48): find the player by
case-insensitive name, then update `wins` by `firestore.Increment(amount)`
— and `lastWinAt` to the server time only when `amount > 0`. -/
def add_win (s : TournamentState) (player_name : List Char) (amount : ℤ)
    (now : ℚ) : TournamentState :=
  { s with
      players :=
        updateFirst (fun p => toLowerName p.name = toLowerName player_name)
          (fun p =>
            if amount > 0 then
              { p with wins := p.wins + amount, lastWinAt := some now }
            else
              { p with wins := p.wins + amount })
          s.players }

/-- The `new_wins` value the script computes and prints
(`db_add_win.py`, lines 30, 41, 47): `max(0, current_wins + amount)`,
"Don't go below 0" — for the first player matching the name, if any. -/
def add_win_printed_new_wins (s : TournamentState) (player_name : List Char)
    (amount : ℤ) : Option ℤ :=
  (s.players.find? (fun p => toLowerName p.name = toLowerName player_name)).map
    (fun p => max 0 (p.wins + amount))

/-! ## Concrete test fixtures (inputs for witnesses and counterexamples) -/

/-- An unassigned, non-eliminated player with no score events; the id is
also used as the name. -/
def plainPlayer (pid : String) (w : ℤ) (lw : Option ℚ) : Player :=
  ⟨pid, pid.data, w, 0, [], lw, none, none, false⟩

/-- A one-player tournament holding a player named `A` with zero wins. -/
def stWin : TournamentState :=
  ⟨⟨0, false⟩, [plainPlayer "A" 0 none], []⟩

/-- A four-player tournament with no round in progress. -/
def stFour : TournamentState :=
  ⟨⟨0, false⟩, [plainPlayer "P1" 0 none, plainPlayer "P2" 0 none,
    plainPlayer "P3" 0 none, plainPlayer "P4" 0 none], []⟩

/-- A tournament whose round 1 is still in progress. -/
def stBusy : TournamentState :=
  ⟨⟨1, true⟩, [plainPlayer "P1" 0 none, plainPlayer "P2" 0 none,
    plainPlayer "P3" 0 none, plainPlayer "P4" 0 none],
    [⟨"r1", 1, none, "in_progress", some 1, none, []⟩]⟩

/-- Two active players with equal scores: `B` has a recorded win whose
timestamp is the epoch (`0`), `A` has never won. -/
def stEpoch : TournamentState :=
  ⟨⟨0, false⟩, [plainPlayer "B" 0 (some 0), plainPlayer "A" 0 none], []⟩

/-- The eight players of the spec's assignment scenario, with wins
`A:3, B:2, C:2, D:1, E:0, F:0, G:0, H:0`. -/
def playersEight : List Player :=
  [plainPlayer "A" 3 none, plainPlayer "B" 2 none, plainPlayer "C" 2 none,
   plainPlayer "D" 1 none, plainPlayer "E" 0 none, plainPlayer "F" 0 none,
   plainPlayer "G" 0 none, plainPlayer "H" 0 none]

/-- The same eight players presented in a different order. -/
def playersEightShuffled : List Player :=
  [plainPlayer "E" 0 none, plainPlayer "F" 0 none, plainPlayer "G" 0 none,
   plainPlayer "H" 0 none, plainPlayer "A" 3 none, plainPlayer "B" 2 none,
   plainPlayer "C" 2 none, plainPlayer "D" 1 none]

/-- Five distinct players (a table plus one left over). -/
def playersFive : List Player :=
  [plainPlayer "P1" 0 none, plainPlayer "P2" 0 none, plainPlayer "P3" 0 none,
   plainPlayer "P4" 0 none, plainPlayer "P5" 0 none]

/-! # Claim theorems -/

/-- C2.  For every player and every round-number → multiplier map,
`tournamentScore` is the sum over all of the player's score events of
`delta × multiplier[roundNumber]`, an event whose round number is absent
from the map (or absent from the event) contributing `delta × 1`; the
result is unchanged by any permutation of the event list. -/
theorem tournamentScore_sum_and_perm_invariant
    (m : List (ℕ × ℚ)) (p : Player) (ev : List ScoreEvent)
    (h : ev.Perm p.scoreEvents) :
    tournamentScore m p =
      (p.scoreEvents.map (fun e => e.delta *
        (match e.roundNumber with
         | some n => (match m.lookup n with | some q => q | none => 1)
         | none => 1))).sum ∧
    tournamentScore m { p with scoreEvents := ev } = tournamentScore m p := by
  constructor
  · unfold tournamentScore
    congr 1
    refine List.map_congr_left (fun e _ => ?_)
    cases hrn : e.roundNumber with
    | none => simp [multOf]
    | some n => cases hlk : m.lookup n <;> simp [multOf, hlk]
  · exact (h.map (fun e => e.delta * multOf m e.roundNumber)).sum_eq

/-- C2 witness: a concrete two-event ledger and its reversal have the same
tournament score, computed by the claimed sum. -/
theorem tournamentScore_sum_witness :
    ([⟨(2 : ℚ), some 2⟩, ⟨(1 : ℚ), some 1⟩] : List ScoreEvent).Perm
        [⟨(1 : ℚ), some 1⟩, ⟨(2 : ℚ), some 2⟩] ∧
    tournamentScore [(2, 3)]
      { plainPlayer "A" 0 none with
          scoreEvents := [⟨(1 : ℚ), some 1⟩, ⟨(2 : ℚ), some 2⟩] } =
      tournamentScore [(2, 3)]
        { plainPlayer "A" 0 none with
            scoreEvents := [⟨(2 : ℚ), some 2⟩, ⟨(1 : ℚ), some 1⟩] } := by
  refine ⟨List.Perm.swap _ _ _, ?_⟩
  have h := tournamentScore_sum_and_perm_invariant [(2, 3)]
    { plainPlayer "A" 0 none with
        scoreEvents := [⟨(1 : ℚ), some 1⟩, ⟨(2 : ℚ), some 2⟩] }
    [⟨(2 : ℚ), some 2⟩, ⟨(1 : ℚ), some 1⟩] (List.Perm.swap _ _ _)
  exact h.2.symm

/-- C5.  `appendScoreEvent` rejects, at write time, an append lacking a
`roundNumber`: it returns an error and produces no updated player (so the
ledger and the aggregates computed from it are unchanged). -/
theorem appendScoreEvent_rejects_missing_roundNumber
    (p : Player) (delta : ℚ) :
    appendScoreEvent p delta none = Except.error () ∧
    ∀ q : Player, appendScoreEvent p delta none ≠ Except.ok q := by
  refine ⟨rfl, fun q h => ?_⟩
  simp [appendScoreEvent] at h

/-- C9 counter-evidence.  The script computes and prints
`new_wins = max(0, current_wins + amount)` ("Don't go below 0") but stores
`firestore.Increment(amount)`: recording `-1` against a player with `0`
wins leaves `-1` in the database while the script reports `0`. -/
theorem add_win_stores_unfloored_wins :
    (add_win stWin "a".data (-1) 0).players.map Player.wins = [-1] ∧
    add_win_printed_new_wins stWin "a".data (-1) = some 0 ∧
    ¬ (0 : ℤ) ≤ -1 := by
  refine ⟨by decide, by decide, by decide⟩

/-- C10.  `add_win` never touches the tournament document, the rounds, or
any player field other than `wins` and `lastWinAt`; a `wins` change is by
exactly `amount` and only on a player matching the searched name;
`lastWinAt` is unchanged whenever `amount ≤ 0`, and when it does change
the amount was strictly positive and the new value is the current time. -/
theorem add_win_frame (s : TournamentState) (nm : List Char) (amount : ℤ)
    (now : ℚ) :
    (add_win s nm amount now).tournament = s.tournament ∧
    (add_win s nm amount now).rounds = s.rounds ∧
    List.Forall₂ (fun p q =>
        q.pid = p.pid ∧ q.name = p.name ∧ q.points = p.points ∧
        q.scoreEvents = p.scoreEvents ∧ q.tableId = p.tableId ∧
        q.position = p.position ∧ q.eliminated = p.eliminated ∧
        (q.wins = p.wins ∨
          (q.wins = p.wins + amount ∧ toLowerName p.name = toLowerName nm)) ∧
        (amount ≤ 0 → q.lastWinAt = p.lastWinAt) ∧
        (q.lastWinAt ≠ p.lastWinAt → 0 < amount ∧ q.lastWinAt = some now))
      s.players (add_win s nm amount now).players := by
  refine ⟨rfl, rfl, ?_⟩
  show List.Forall₂ _ s.players (updateFirst _ _ s.players)
  induction s.players with
  | nil => exact List.Forall₂.nil
  | cons p ps ih =>
      show List.Forall₂ _ (p :: ps) (updateFirst _ _ (p :: ps))
      rw [updateFirst]
      split
      · rename_i hpred
        refine List.Forall₂.cons ?_ ?_
        · split
          · rename_i hpos
            refine ⟨rfl, rfl, rfl, rfl, rfl, rfl, rfl,
              Or.inr ⟨rfl, of_decide_eq_true hpred⟩,
              fun hle => absurd hpos (not_lt.mpr hle), fun _ => ⟨hpos, rfl⟩⟩
          · rename_i hpos
            exact ⟨rfl, rfl, rfl, rfl, rfl, rfl, rfl,
              Or.inr ⟨rfl, of_decide_eq_true hpred⟩,
              fun _ => rfl, fun hne => absurd rfl hne⟩
        · refine List.forall₂_same.mpr (fun q _ => ?_)
          exact ⟨rfl, rfl, rfl, rfl, rfl, rfl, rfl, Or.inl rfl,
            fun _ => rfl, fun hne => absurd rfl hne⟩
      · exact List.Forall₂.cons
          ⟨rfl, rfl, rfl, rfl, rfl, rfl, rfl, Or.inl rfl,
            fun _ => rfl, fun hne => absurd rfl hne⟩ ih

/-- C10 witness: the frame theorem applied to the one-player fixture with
a negative correction. -/
theorem add_win_frame_witness :
    (add_win stWin "a".data (-1) 7).tournament = stWin.tournament ∧
    (add_win stWin "a".data (-1) 7).rounds = stWin.rounds ∧
    ∀ q ∈ (add_win stWin "a".data (-1) 7).players,
      q.lastWinAt = none := by
  have h := add_win_frame stWin "a".data (-1) 7
  refine ⟨h.1, h.2.1, ?_⟩
  decide

/-! ### Lemmas about the `start_round` write sequence -/

theorem applyWrites_append (s : TournamentState)
    (ws ws' : List (TournamentState → TournamentState)) :
    applyWrites s (ws ++ ws') = applyWrites (applyWrites s ws) ws' :=
  List.foldl_append _ _ _ _

theorem applyWrites_cons (s : TournamentState)
    (w : TournamentState → TournamentState)
    (ws : List (TournamentState → TournamentState)) :
    applyWrites s (w :: ws) = applyWrites (w s) ws := rfl

theorem applyWrites_participants (rid : String) (pas : List Participant) :
    ∀ st : TournamentState,
      applyWrites st (pas.map (fun pa => addParticipant rid pa)) =
        { st with rounds := st.rounds.map (fun r =>
            if r.rid = rid then
              { r with participants := r.participants ++ pas }
            else r) } := by
  induction pas with
  | nil =>
      intro st
      show st = _
      have h : ∀ r : Round,
          (if r.rid = rid then
            { r with participants := r.participants ++ ([] : List Participant) }
          else r) = id r := by
        intro r
        split <;> simp
      rw [List.map_congr_left (fun r _ => h r), List.map_id]
  | cons pa pas ih =>
      intro st
      show applyWrites (addParticipant rid pa st) _ = _
      rw [ih (addParticipant rid pa st)]
      rw [addParticipant]
      show ({ st with rounds := _ } : TournamentState) = { st with rounds := _ }
      simp only [List.map_map]
      congr 1
      refine List.map_congr_left (fun r _ => ?_)
      by_cases h : r.rid = rid
      · simp [Function.comp, h]
      · simp [Function.comp, h]

/-- The participant write sequence leaves fresh-id-disjoint rounds alone
and appends the snapshots to the freshly created round document. -/
theorem applyWrites_participants_fresh (rid : String)
    (pas : List Participant) (st : TournamentState)
    (h : ∀ r ∈ st.rounds, r.rid ≠ rid) (r0 : Round) (h0 : r0.rid = rid) :
    applyWrites { st with rounds := st.rounds ++ [r0] }
        (pas.map (fun pa => addParticipant rid pa)) =
      { st with rounds := st.rounds ++
          [{ r0 with participants := r0.participants ++ pas }] } := by
  rw [applyWrites_participants, List.map_append]
  show ({ st with rounds := _ } : TournamentState) = { st with rounds := _ }
  congr 1
  refine congrArg₂ _ ?_ ?_
  · exact (List.map_congr_left
      (fun r hr => (if_neg (h r hr) : _ = id r))).trans (List.map_id _)
  · simp [h0]

/-- C3.  `start_round` is rejected whenever a round is in progress, there
are no active players, or the active count is not divisible by 4 (the
error return leaves the state untouched); on success it appends exactly
one round — `roundNumber = currentRound + 1`, status `in_progress` — with
exactly one participant snapshot per active player copying the player's
current `wins`, `points`, `tableId`, `position` and `lastWinAt`, and sets
`currentRound := currentRound + 1`, `roundInProgress := true`, leaving the
players unchanged. -/
theorem start_round_spec (s : TournamentState) (now : ℚ) (rid : String)
    (hfresh : ∀ r ∈ s.rounds, r.rid ≠ rid) :
    (s.tournament.roundInProgress = true ∨ activePlayers s = [] ∨
        (activePlayers s).length % 4 ≠ 0 →
      ∃ e, start_round s now rid = Except.error e) ∧
    (s.tournament.roundInProgress = false →
      activePlayers s ≠ [] →
      (activePlayers s).length % 4 = 0 →
      start_round s now rid = Except.ok
        { tournament := { currentRound := s.tournament.currentRound + 1,
                          roundInProgress := true },
          players := s.players,
          rounds := s.rounds ++
            [{ rid := rid,
               roundNumber := s.tournament.currentRound + 1,
               scoreMultiplier := none,
               status := "in_progress",
               startedAt := some now, endedAt := none,
               participants := (activePlayers s).map (fun p =>
                 { playerId := p.pid, name := p.name, wins := p.wins,
                   points := p.points, tableId := p.tableId,
                   position := p.position, lastWinAt := p.lastWinAt,
                   snapshotAt := now }) }] }) := by
  constructor
  · intro h
    rw [start_round]
    by_cases h1 : s.tournament.roundInProgress
    · simp only [h1, if_true]
      exact ⟨_, rfl⟩
    · simp only [h1, if_false, Bool.false_eq_true]
      by_cases h2 : (activePlayers s).length = 0
      · simp only [h2, if_true]
        exact ⟨_, rfl⟩
      · simp only [h2, if_false]
        rcases h with h | h | h
        · exact absurd h (by simpa using h1)
        · exact absurd (by rw [h]; rfl) h2
        · rw [if_pos h]
          exact ⟨_, rfl⟩
  · intro h1 h2 h3
    rw [start_round]
    simp only [h1, Bool.false_eq_true, if_false]
    rw [if_neg (fun hl => h2 (List.length_eq_zero.mp hl)),
      if_neg (fun hne => hne h3)]
    congr 1
    have hmaps : (activePlayers s).map
        (fun p => addParticipant rid (snapshotOf p now)) =
        ((activePlayers s).map (fun p => snapshotOf p now)).map
          (fun pa => addParticipant rid pa) := by
      rw [List.map_map]
      rfl
    rw [startRoundWrites, List.cons_append, applyWrites_cons,
      applyWrites_append, hmaps,
      applyWrites_participants_fresh rid
        ((activePlayers s).map (fun p => snapshotOf p now)) s hfresh
        ⟨rid, s.tournament.currentRound + 1, none, "in_progress",
          some now, none, []⟩ rfl]
    rfl

/-- C3 witness: the spec theorem applied to a concrete four-player
tournament (success) and to a tournament with a round already in progress
(rejection). -/
theorem start_round_spec_witness :
    ((∀ r ∈ stFour.rounds, r.rid ≠ "r1") ∧
     stFour.tournament.roundInProgress = false ∧
     activePlayers stFour ≠ [] ∧
     (activePlayers stFour).length % 4 = 0 ∧
     start_round stFour 0 "r1" = Except.ok
       { tournament := { currentRound := stFour.tournament.currentRound + 1,
                         roundInProgress := true },
         players := stFour.players,
         rounds := stFour.rounds ++
           [{ rid := "r1",
              roundNumber := stFour.tournament.currentRound + 1,
              scoreMultiplier := none,
              status := "in_progress",
              startedAt := some 0, endedAt := none,
              participants := (activePlayers stFour).map (fun p =>
                { playerId := p.pid, name := p.name, wins := p.wins,
                  points := p.points, tableId := p.tableId,
                  position := p.position, lastWinAt := p.lastWinAt,
                  snapshotAt := 0 }) }] }) ∧
    (stBusy.tournament.roundInProgress = true ∧
     ∃ e, start_round stBusy 0 "r2" = Except.error e) := by
  constructor
  · refine ⟨by decide, by decide, by decide, by decide, ?_⟩
    exact (start_round_spec stFour 0 "r1" (by decide)).2
      (by decide) (by decide) (by decide)
  · refine ⟨by decide, ?_⟩
    exact (start_round_spec stBusy 0 "r2" (by decide)).1 (Or.inl (by decide))

/-- C6 fails on the code: `start_round` performs its writes sequentially
with no transaction (`db_start_round.py`, lines 69-105, a bare
`try/except` that only prints the error).  If execution dies after the
second write, the database holds the new round document with one of the
four participant snapshots and the tournament flags not yet flipped — a
state that is neither the initial one nor the committed one. -/
theorem start_round_not_atomic :
    (activePlayers stFour).length = 4 ∧
    (startRoundWrites stFour 0 "r1").length = 6 ∧
    ((start_round_upto stFour 0 "r1" 2).rounds.map
        (fun r => (r.rid, r.status, r.participants.length))) =
      [("r1", "in_progress", 1)] ∧
    (start_round_upto stFour 0 "r1" 2).tournament.roundInProgress = false ∧
    start_round_upto stFour 0 "r1" 2 ≠ stFour ∧
    start_round stFour 0 "r1" =
      Except.ok (start_round_upto stFour 0 "r1" 6) ∧
    start_round_upto stFour 0 "r1" 2 ≠ start_round_upto stFour 0 "r1" 6 := by
  refine ⟨by decide, by decide, by decide, by decide, by decide, by decide,
    by decide⟩

/-! ### Lemmas about the assignment algorithms -/

theorem chunksOf4_length {α : Type} (c : ℕ) (l : List α) :
    (chunksOf4 c l).length = c := by
  simp [chunksOf4]

theorem chunksOf4_mem_length {α : Type} (c : ℕ) (l : List α)
    (hlen : l.length = 4 * c) :
    ∀ g ∈ chunksOf4 c l, g.length = 4 := by
  intro g hg
  rcases List.mem_map.mp hg with ⟨i, hi, rfl⟩
  have hi' : i < c := List.mem_range.mp hi
  rw [List.length_take, List.length_drop, hlen]
  omega

theorem chunksOf4_join {α : Type} :
    ∀ (c : ℕ) (l : List α), l.length = 4 * c → (chunksOf4 c l).flatten = l := by
  intro c
  induction c with
  | zero =>
      intro l hl
      rw [Nat.mul_zero] at hl
      rw [List.length_eq_zero.mp hl]
      rfl
  | succ c ih =>
      intro l hl
      have hstep : ∀ i ∈ List.range c,
          ((fun i => List.take 4 (List.drop (i * 4) l)) ∘ Nat.succ) i =
            ((l.drop 4).drop (i * 4)).take 4 := by
        intro i _
        show (l.drop (Nat.succ i * 4)).take 4 = _
        rw [List.drop_drop, show 4 + i * 4 = Nat.succ i * 4 from by omega]
      rw [chunksOf4, List.range_succ_eq_map, List.map_cons, List.map_map,
        List.flatten_cons, Nat.zero_mul, List.drop_zero,
        List.map_congr_left hstep]
      have hjoin : (List.map (fun i => ((l.drop 4).drop (i * 4)).take 4)
          (List.range c)).flatten = l.drop 4 := by
        have := ih (l.drop 4) (by rw [List.length_drop, hl]; omega)
        rw [chunksOf4] at this
        exact this
      rw [hjoin, List.take_append_drop]

theorem rrGo_length {α : Type} (T : ℕ) :
    ∀ (xs : List α) (i : ℕ) (tables : List (List α)),
      (rrGo T i xs tables).length = tables.length := by
  intro xs
  induction xs with
  | nil => intro i tables; rfl
  | cons x xs ih =>
      intro i tables
      rw [rrGo, ih, List.length_set]

theorem getD_set_self {α : Type} (d : α) :
    ∀ (l : List α) (k : ℕ) (v : α), k < l.length →
      (l.set k v).getD k d = v := by
  intro l
  induction l with
  | nil => intro k v h; simp at h
  | cons a l ih =>
      intro k v h
      cases k with
      | zero => rfl
      | succ k =>
          show (l.set k v).getD k d = v
          exact ih k v (by simpa using h)

theorem getD_set_ne {α : Type} (d : α) :
    ∀ (l : List α) (k k' : ℕ) (v : α), k' ≠ k →
      (l.set k' v).getD k d = l.getD k d := by
  intro l
  induction l with
  | nil => intro k k' v _; rfl
  | cons a l ih =>
      intro k k' v hne
      cases k' with
      | zero =>
          cases k with
          | zero => exact absurd rfl hne
          | succ k => rfl
      | succ k' =>
          cases k with
          | zero => rfl
          | succ k =>
              show (l.set k' v).getD k d = l.getD k d
              exact ih k k' v (fun h => hne (by rw [h]))

theorem getD_replicate_nil {α : Type} :
    ∀ (T k : ℕ), (List.replicate T ([] : List α)).getD k [] = [] := by
  intro T
  induction T with
  | zero => intro k; cases k <;> rfl
  | succ T ih =>
      intro k
      cases k with
      | zero => rfl
      | succ k => exact ih k

theorem join_set_perm {α : Type} :
    ∀ (tables : List (List α)) (k : ℕ) (x : α), k < tables.length →
      (tables.set k (tables.getD k [] ++ [x])).flatten.Perm
        (tables.flatten ++ [x]) := by
  intro tables
  induction tables with
  | nil => intro k x h; simp at h
  | cons t ts ih =>
      intro k x h
      cases k with
      | zero =>
          show ((t ++ [x]) :: ts).flatten.Perm ((t :: ts).flatten ++ [x])
          rw [List.flatten_cons, List.flatten_cons, List.append_assoc,
            List.append_assoc]
          exact List.Perm.append_left t (List.perm_append_comm)
      | succ k =>
          show (t :: ts.set k _).flatten.Perm ((t :: ts).flatten ++ [x])
          rw [List.flatten_cons, List.flatten_cons, List.append_assoc]
          exact List.Perm.append_left t (ih k x (by simpa using h))

theorem rrGo_join_perm {α : Type} (T : ℕ) (hT : 0 < T) :
    ∀ (xs : List α) (i : ℕ) (tables : List (List α)),
      tables.length = T →
      (rrGo T i xs tables).flatten.Perm (tables.flatten ++ xs) := by
  intro xs
  induction xs with
  | nil => intro i tables _; simp [rrGo]
  | cons x xs ih =>
      intro i tables hlen
      rw [rrGo]
      have h2 := ih (i + 1)
        (tables.set (i % T) (tables.getD (i % T) [] ++ [x]))
        (by rw [List.length_set, hlen])
      refine h2.trans ?_
      have h1 : (tables.set (i % T)
          (tables.getD (i % T) [] ++ [x])).flatten.Perm (tables.flatten ++ [x]) :=
        join_set_perm tables (i % T) x (by rw [hlen]; exact Nat.mod_lt i hT)
      refine (h1.append_right xs).trans ?_
      rw [List.append_assoc, List.singleton_append]

theorem rrGo_getD {α : Type} (T : ℕ) (k : ℕ) (hk : k < T) :
    ∀ (xs : List α) (i : ℕ) (tables : List (List α)), tables.length = T →
      (rrGo T i xs tables).getD k [] =
        tables.getD k [] ++
          ((xs.enumFrom i).filter (fun q => q.1 % T = k)).map Prod.snd := by
  intro xs
  induction xs with
  | nil => intro i tables _; simp [rrGo, List.enumFrom]
  | cons x xs ih =>
      intro i tables hlen
      rw [rrGo, ih (i + 1) _ (by rw [List.length_set, hlen])]
      by_cases h : i % T = k
      · rw [h, getD_set_self [] tables k _ (by rw [hlen]; exact hk)]
        rw [show (x :: xs).enumFrom i = (i, x) :: xs.enumFrom (i + 1)
            from rfl,
          List.filter_cons]
        simp [h, List.append_assoc]
      · rw [getD_set_ne [] tables k (i % T) _ h]
        rw [show (x :: xs).enumFrom i = (i, x) :: xs.enumFrom (i + 1)
            from rfl,
          List.filter_cons]
        simp [h]

theorem enumFrom_filter_map_fst {α : Type} (p : ℕ → Bool) :
    ∀ (l : List α) (i : ℕ),
      ((l.enumFrom i).filter (fun q => p q.1)).map Prod.fst =
        (List.range' i l.length).filter p := by
  intro l
  induction l with
  | nil => intro i; rfl
  | cons x xs ih =>
      intro i
      rw [show (x :: xs).length = xs.length + 1 from rfl, List.range'_succ,
        show (x :: xs).enumFrom i = (i, x) :: xs.enumFrom (i + 1) from rfl,
        List.filter_cons, List.filter_cons]
      by_cases h : p i = true
      · simp [h, ih (i + 1)]
      · simp [h, ih (i + 1)]

theorem range_filter_eq (k : ℕ) :
    ∀ T : ℕ, k < T → (List.range T).filter (fun r => r = k) = [k] := by
  intro T
  induction T with
  | zero => intro h; omega
  | succ T ih =>
      intro h
      rw [List.range_succ, List.filter_append, List.filter_cons]
      by_cases h' : k < T
      · rw [ih h']
        have hne : ¬ (T = k) := by omega
        simp [hne]
      · have hk : k = T := by omega
        subst hk
        have h1 : (List.range k).filter (fun r => decide (r = k)) = [] :=
          List.filter_eq_nil.mpr
            (fun a ha => by
              simpa using Nat.ne_of_lt (List.mem_range.mp ha))
        rw [h1]
        simp

theorem range'_block_filter (T k : ℕ) (hk : k < T) (c : ℕ) :
    (List.range' (c * T) T).filter (fun i => i % T = k) = [c * T + k] := by
  rw [List.range'_eq_map_range, List.filter_map]
  have h1 : (List.range T).filter
        ((fun i => decide (i % T = k)) ∘ (fun x => c * T + x)) =
      (List.range T).filter (fun r => decide (r = k)) := by
    refine List.filter_congr (fun r hr => ?_)
    have hr' : r < T := List.mem_range.mp hr
    have : (c * T + r) % T = r := by
      rw [Nat.add_comm, Nat.add_mul_mod_self_right, Nat.mod_eq_of_lt hr']
    simp [Function.comp, this]
  rw [h1, range_filter_eq k T hk]
  rfl

theorem range'_filter_mod (T k : ℕ) (hk : k < T) :
    ∀ c : ℕ, (List.range' 0 (c * T)).filter (fun i => i % T = k) =
      (List.range c).map (fun j => j * T + k) := by
  intro c
  induction c with
  | zero => simp
  | succ c ih =>
      have hsplit : List.range' 0 ((c + 1) * T) =
          List.range' 0 (c * T) ++ List.range' (c * T) T := by
        have h2 := List.range'_append 0 (c * T) T 1
        rw [Nat.one_mul, Nat.zero_add] at h2
        rw [show (c + 1) * T = T + c * T from by ring]
        exact h2.symm
      rw [hsplit, List.filter_append, ih, range'_block_filter T k hk c,
        List.range_succ, List.map_append]
      rfl

theorem snd_mem_of_mem_enumFrom {α : Type} :
    ∀ (l : List α) (n i : ℕ) (x : α), (i, x) ∈ l.enumFrom n → x ∈ l := by
  intro l
  induction l with
  | nil => intro n i x h; simp [List.enumFrom] at h
  | cons y ys ih =>
      intro n i x h
      rcases List.mem_cons.mp h with h | h
      · have : x = y := congrArg Prod.snd h
        rw [this]
        exact List.mem_cons_self y ys
      · exact List.mem_cons_of_mem y (ih (n + 1) i x h)

theorem indexOf_enumFrom {α : Type} [DecidableEq α] :
    ∀ (l : List α), l.Nodup → ∀ (n i : ℕ) (x : α),
      (i, x) ∈ l.enumFrom n → l.indexOf x + n = i := by
  intro l
  induction l with
  | nil => intro _ n i x h; simp [List.enumFrom] at h
  | cons y ys ih =>
      intro hnd n i x h
      rcases List.mem_cons.mp h with h | h
      · have hx : x = y := congrArg Prod.snd h
        have hi : i = n := congrArg Prod.fst h
        subst hx
        subst hi
        rw [List.indexOf_cons_self]
        omega
      · have hx : x ∈ ys := snd_mem_of_mem_enumFrom ys (n + 1) i x h
        have hxy : y ≠ x := fun he => (List.nodup_cons.mp hnd).1 (he ▸ hx)
        rw [List.indexOf_cons_ne _ hxy]
        have h2 := ih (List.nodup_cons.mp hnd).2 (n + 1) i x h
        omega

theorem mem_eq_getD {α : Type} (gs : List (List α)) (g : List α)
    (hg : g ∈ gs) : ∃ k, k < gs.length ∧ gs.getD k [] = g := by
  rcases List.mem_iff_get.mp hg with ⟨⟨k, hk⟩, rfl⟩
  exact ⟨k, hk, by rw [List.getD_eq_get?, List.get?_eq_get hk]; rfl⟩

theorem flatten_replicate_nil {α : Type} :
    ∀ T : ℕ, (List.replicate T ([] : List α)).flatten = [] := by
  intro T
  induction T with
  | zero => rfl
  | succ T ih => simp [List.replicate_succ, ih]

/-- C7.  For every list of at least 4 distinct eligible players and every
algorithm choice, `assign_by_algorithm` produces exactly `⌊n/4⌋` groups of
exactly 4 players each; the grouped players are exactly the first
`⌊n/4⌋·4` players of the eligible list, each appearing in exactly one
group (no duplication, no silent drop); the remaining `n mod 4` players
appear in no group; and when `4 ∣ n` the groups cover all `n` players
exactly once. -/
theorem assign_by_algorithm_partition
    (shuffle : List Player → List Player)
    (hsh : ∀ l, (shuffle l).Perm l)
    (algorithm : String) (players : List Player)
    (hnd : players.Nodup) (hlen : 4 ≤ players.length) :
    (assign_by_algorithm shuffle algorithm players).length =
      players.length / 4 ∧
    (∀ g ∈ assign_by_algorithm shuffle algorithm players, g.length = 4) ∧
    (assign_by_algorithm shuffle algorithm players).flatten.Perm
      (players.take (players.length / 4 * 4)) ∧
    (∀ p ∈ players.take (players.length / 4 * 4),
      (assign_by_algorithm shuffle algorithm players).flatten.count p = 1) ∧
    (∀ p ∈ players.drop (players.length / 4 * 4),
      p ∉ (assign_by_algorithm shuffle algorithm players).flatten) ∧
    (4 ∣ players.length →
      (assign_by_algorithm shuffle algorithm players).flatten.Perm
        players) := by
  have hT : 0 < players.length / 4 := Nat.div_pos hlen (by norm_num)
  have htoA : (players.take (players.length / 4 * 4)).length =
      4 * (players.length / 4) := by
    rw [List.length_take]
    have := Nat.div_mul_le_self players.length 4
    omega
  have htoAnd : (players.take (players.length / 4 * 4)).Nodup :=
    List.Nodup.sublist (List.take_sublist _ _) hnd
  -- the three structural facts, for any permutation of the grouped slice
  have hmain : ∀ gs : List (List Player),
      gs.length = players.length / 4 →
      (∀ g ∈ gs, g.length = 4) →
      gs.flatten.Perm (players.take (players.length / 4 * 4)) →
      (gs.length = players.length / 4 ∧
        (∀ g ∈ gs, g.length = 4) ∧
        gs.flatten.Perm (players.take (players.length / 4 * 4)) ∧
        (∀ p ∈ players.take (players.length / 4 * 4),
          gs.flatten.count p = 1) ∧
        (∀ p ∈ players.drop (players.length / 4 * 4), p ∉ gs.flatten) ∧
        (4 ∣ players.length → gs.flatten.Perm players)) := by
    intro gs h1 h2 h3
    refine ⟨h1, h2, h3, ?_, ?_, ?_⟩
    · intro p hp
      rw [h3.count_eq p]
      exact List.count_eq_one_of_mem htoAnd hp
    · intro p hp hmem
      exact (List.disjoint_take_drop hnd le_rfl) (h3.mem_iff.mp hmem) hp
    · intro hdvd
      have : players.length / 4 * 4 = players.length :=
        Nat.div_mul_cancel hdvd
      rw [this, List.take_length] at h3
      exact h3
  -- facts for a chunk-slicing branch applied to any permuted slice
  have hchunks : ∀ l' : List Player,
      l'.Perm (players.take (players.length / 4 * 4)) →
      (chunksOf4 (players.length / 4) l').length = players.length / 4 ∧
      (∀ g ∈ chunksOf4 (players.length / 4) l', g.length = 4) ∧
      (chunksOf4 (players.length / 4) l').flatten.Perm
        (players.take (players.length / 4 * 4)) := by
    intro l' hp
    have hl' : l'.length = 4 * (players.length / 4) :=
      hp.length_eq.trans htoA
    refine ⟨chunksOf4_length _ _, chunksOf4_mem_length _ _ hl', ?_⟩
    rw [chunksOf4_join _ _ hl']
    exact hp
  -- facts for the round-robin branch
  have hrr : ∀ l' : List Player,
      l'.Perm (players.take (players.length / 4 * 4)) →
      (distributeRoundRobin (players.length / 4) l').length =
        players.length / 4 ∧
      (∀ g ∈ distributeRoundRobin (players.length / 4) l', g.length = 4) ∧
      (distributeRoundRobin (players.length / 4) l').flatten.Perm
        (players.take (players.length / 4 * 4)) := by
    intro l' hp
    have hl' : l'.length = 4 * (players.length / 4) :=
      hp.length_eq.trans htoA
    have hreplen : (List.replicate (players.length / 4)
        ([] : List Player)).length = players.length / 4 :=
      List.length_replicate _ _
    refine ⟨?_, ?_, ?_⟩
    · rw [distributeRoundRobin, rrGo_length, hreplen]
    · intro g hg
      obtain ⟨k, hk, hgk⟩ := mem_eq_getD _ g hg
      rw [distributeRoundRobin, rrGo_length, hreplen] at hk
      rw [← hgk, distributeRoundRobin,
        rrGo_getD _ k hk l' 0 _ hreplen, getD_replicate_nil,
        List.nil_append, List.length_map]
      have hfst := enumFrom_filter_map_fst
        (fun n => decide (n % (players.length / 4) = k)) l' 0
      have hflen := congrArg List.length hfst
      rw [List.length_map] at hflen
      rw [hflen, hl', range'_filter_mod _ k hk 4, List.length_map]
      rfl
    · rw [distributeRoundRobin]
      have := rrGo_join_perm (players.length / 4) hT l' 0
        (List.replicate (players.length / 4) []) hreplen
      rw [flatten_replicate_nil, List.nil_append] at this
      exact this.trans hp
  by_cases h1 : algorithm = "random"
  · have heq : assign_by_algorithm shuffle algorithm players =
        chunksOf4 (players.length / 4)
          (shuffle (players.take (players.length / 4 * 4))) := by
      simp [assign_by_algorithm, h1]
    rw [heq]
    obtain ⟨a, b, c⟩ := hchunks _ (hsh _)
    exact hmain _ a b c
  · by_cases h2 : algorithm = "ranking"
    · have heq : assign_by_algorithm shuffle algorithm players =
          chunksOf4 (players.length / 4)
            (sort_players_by_ranking
              (players.take (players.length / 4 * 4))) := by
        simp [assign_by_algorithm, h1, h2]
      rw [heq]
      obtain ⟨a, b, c⟩ := hchunks _ (List.perm_insertionSort rankKeyLE
        (players.take (players.length / 4 * 4)))
      exact hmain _ a b c
    · by_cases h3 : algorithm = "round_robin"
      · have heq : assign_by_algorithm shuffle algorithm players =
            distributeRoundRobin (players.length / 4)
              (sort_players_by_ranking
                (players.take (players.length / 4 * 4))) := by
          simp [assign_by_algorithm, h1, h2, h3]
        rw [heq]
        obtain ⟨a, b, c⟩ := hrr _ (List.perm_insertionSort rankKeyLE
          (players.take (players.length / 4 * 4)))
        exact hmain _ a b c
      · have heq : assign_by_algorithm shuffle algorithm players =
            chunksOf4 (players.length / 4)
              (shuffle (players.take (players.length / 4 * 4))) := by
          simp [assign_by_algorithm, h1, h2, h3]
        rw [heq]
        obtain ⟨a, b, c⟩ := hchunks _ (hsh _)
        exact hmain _ a b c

/-- C7 witness: the partition theorem applied to five concrete players
under the `ranking` algorithm (identity shuffle): one table of 4, one
player left over. -/
theorem assign_by_algorithm_partition_witness :
    (playersFive.Nodup ∧ 4 ≤ playersFive.length) ∧
    ((assign_by_algorithm id "ranking" playersFive).length =
        playersFive.length / 4 ∧
      (∀ g ∈ assign_by_algorithm id "ranking" playersFive, g.length = 4) ∧
      (assign_by_algorithm id "ranking" playersFive).flatten.Perm
        (playersFive.take (playersFive.length / 4 * 4)) ∧
      (∀ p ∈ playersFive.take (playersFive.length / 4 * 4),
        (assign_by_algorithm id "ranking" playersFive).flatten.count p = 1) ∧
      (∀ p ∈ playersFive.drop (playersFive.length / 4 * 4),
        p ∉ (assign_by_algorithm id "ranking" playersFive).flatten) ∧
      (4 ∣ playersFive.length →
        (assign_by_algorithm id "ranking" playersFive).flatten.Perm
          playersFive)) :=
  ⟨⟨by decide, by decide⟩,
    assign_by_algorithm_partition id (fun l => List.Perm.refl l) "ranking"
      playersFive (by decide) (by decide)⟩

/-! ### Round-robin rank sums -/

theorem rr_group_rankPosSum (T : ℕ) (l : List Player)
    (hnd : l.Nodup) (hlen : l.length = 4 * T) (k : ℕ) (hk : k < T) :
    rankPosSum l ((distributeRoundRobin T l).getD k []) =
      6 * T + 4 * k + 4 := by
  have hrep : (List.replicate T ([] : List Player)).length = T :=
    List.length_replicate _ _
  rw [distributeRoundRobin, rrGo_getD T k hk l 0 _ hrep, getD_replicate_nil,
    List.nil_append, rankPosSum, List.map_map]
  have hcongr : ∀ q ∈ (l.enumFrom 0).filter
      (fun q => q.1 % T = k),
      ((fun x => l.indexOf x + 1) ∘ Prod.snd) q = q.1 + 1 := by
    intro q hq
    have hqmem : q ∈ l.enumFrom 0 := List.mem_of_mem_filter hq
    have h2 := indexOf_enumFrom l hnd 0 q.1 q.2 hqmem
    show l.indexOf q.2 + 1 = q.1 + 1
    omega
  rw [List.map_congr_left hcongr]
  have hsplit : List.map (fun q : ℕ × Player => q.1 + 1)
      ((l.enumFrom 0).filter (fun q => q.1 % T = k)) =
      List.map (fun n => n + 1) (List.map Prod.fst
        ((l.enumFrom 0).filter (fun q => q.1 % T = k))) := by
    rw [List.map_map]
    rfl
  rw [hsplit, enumFrom_filter_map_fst (fun n => decide (n % T = k)) l 0,
    hlen, range'_filter_mod T k hk 4,
    List.map_map, show List.range 4 = [0, 1, 2, 3] from rfl]
  show (0 * T + k + 1) + ((1 * T + k + 1) + ((2 * T + k + 1) +
    ((3 * T + k + 1) + 0))) = 6 * T + 4 * k + 4
  ring

/-- C8 fails on the code: for 8 players and 2 tables, the round-robin
groups' rank sums are 16 (ranks 1,3,5,7) and 20 (ranks 2,4,6,8), whose
difference 4 exceeds `numTables = 2`. -/
theorem round_robin_dispersion_counterexample :
    playersEight.length / 4 = 2 ∧
    rankPosSum (sort_players_by_ranking playersEight)
      ((assign_by_algorithm id "round_robin" playersEight).getD 0 []) = 16 ∧
    rankPosSum (sort_players_by_ranking playersEight)
      ((assign_by_algorithm id "round_robin" playersEight).getD 1 []) = 20 ∧
    ¬ (|(rankPosSum (sort_players_by_ranking playersEight)
          ((assign_by_algorithm id "round_robin" playersEight).getD 0 [])
            : ℤ) -
        (rankPosSum (sort_players_by_ranking playersEight)
          ((assign_by_algorithm id "round_robin" playersEight).getD 1 [])
            : ℤ)| ≤ (playersEight.length / 4 : ℕ)) := by
  refine ⟨by decide, by decide, by decide, by decide⟩

/-- C8 amended.  For every multiple-of-4 player count, any two round-robin
groups' ranked-position sums differ by at most `4·(numTables − 1)` — the
bound the construction actually guarantees (group `k` holds ranks
`k+1, k+1+T, k+1+2T, k+1+3T`, so two groups' sums differ by exactly
`4·|a−b| ≤ 4·(T−1)`, which exceeds `numTables` as soon as `T ≥ 2`). -/
theorem round_robin_dispersion (shuffle : List Player → List Player)
    (players : List Player) (T : ℕ)
    (hT : 0 < T) (hlen : players.length = 4 * T) (hnd : players.Nodup) :
    ∀ ga ∈ assign_by_algorithm shuffle "round_robin" players,
      ∀ gb ∈ assign_by_algorithm shuffle "round_robin" players,
        |(rankPosSum (sort_players_by_ranking players) ga : ℤ) -
          (rankPosSum (sort_players_by_ranking players) gb : ℤ)| ≤
          4 * (T : ℤ) - 4 := by
  have hT4 : players.length / 4 = T := by
    rw [hlen, Nat.mul_div_cancel_left T (by norm_num)]
  have htoA : players.take (T * 4) = players := by
    rw [show T * 4 = players.length from by omega, List.take_length]
  have heq : assign_by_algorithm shuffle "round_robin" players =
      distributeRoundRobin T (sort_players_by_ranking players) := by
    simp [assign_by_algorithm, hT4, htoA]
  have hsortnd : (sort_players_by_ranking players).Nodup :=
    (List.perm_insertionSort rankKeyLE players).nodup_iff.mpr hnd
  have hsortlen : (sort_players_by_ranking players).length = 4 * T :=
    (List.perm_insertionSort rankKeyLE players).length_eq.trans hlen
  have hgslen : (distributeRoundRobin T
      (sort_players_by_ranking players)).length = T := by
    rw [distributeRoundRobin, rrGo_length, List.length_replicate]
  intro ga hga gb hgb
  rw [heq] at hga hgb
  obtain ⟨a, ha, hag⟩ := mem_eq_getD _ _ hga
  obtain ⟨b, hb, hbg⟩ := mem_eq_getD _ _ hgb
  rw [hgslen] at ha hb
  rw [← hag, ← hbg,
    rr_group_rankPosSum T _ hsortnd hsortlen a ha,
    rr_group_rankPosSum T _ hsortnd hsortlen b hb]
  rw [abs_le]
  push_cast
  omega

/-- C8 amended witness: the dispersion bound applied to the concrete
eight-player fixture (two tables, bound `4·2 − 4 = 4`). -/
theorem round_robin_dispersion_witness :
    (0 < 2 ∧ playersEight.length = 4 * 2 ∧ playersEight.Nodup) ∧
    |(rankPosSum (sort_players_by_ranking playersEight)
        ((assign_by_algorithm id "round_robin" playersEight).getD 0 [])
          : ℤ) -
      (rankPosSum (sort_players_by_ranking playersEight)
        ((assign_by_algorithm id "round_robin" playersEight).getD 1 [])
          : ℤ)| ≤ 4 * (2 : ℤ) - 4 :=
  ⟨⟨by decide, by decide, by decide⟩,
    round_robin_dispersion id playersEight 2 (by decide) (by decide)
      (by decide) _ (by decide) _ (by decide)⟩

/-! ### The ranking-assignment scenario -/

/-- Two sorted lists with strictly increasing keys that are permutations
of one another are equal. -/
theorem sorted_key_unique {α κ : Type} [LinearOrder κ] (key : α → κ) :
    ∀ {l₁ l₂ : List α}, l₁.Perm l₂ →
      l₁.Pairwise (fun a b => key a < key b) →
      l₂.Pairwise (fun a b => key a < key b) → l₁ = l₂ := by
  intro l₁
  induction l₁ with
  | nil =>
      intro l₂ hp _ _
      exact (List.Perm.eq_nil hp.symm).symm
  | cons a t ih =>
      intro l₂ hp h1 h2
      cases l₂ with
      | nil => exact absurd hp.eq_nil (by simp)
      | cons b t' =>
          have hab : a = b := by
            by_contra hne
            have ha2 : a ∈ b :: t' := hp.mem_iff.mp (List.mem_cons_self a t)
            have hb1 : b ∈ a :: t := hp.mem_iff.mpr (List.mem_cons_self b t')
            have ha' : a ∈ t' := by
              rcases List.mem_cons.mp ha2 with h | h
              exacts [absurd h hne, h]
            have hb' : b ∈ t := by
              rcases List.mem_cons.mp hb1 with h | h
              exacts [absurd h.symm hne, h]
            have hlt1 : key a < key b := (List.pairwise_cons.mp h1).1 b hb'
            have hlt2 : key b < key a := (List.pairwise_cons.mp h2).1 a ha'
            exact absurd hlt1 (not_lt.mpr hlt2.le)
          subst hab
          rw [ih hp.cons_inv h1.of_cons h2.of_cons]

/-- C4 fails on the code: the round-1 guard of `auto_assign_players`
tests `current_round <= 1`, and after round 1 completes `currentRound` is
still `1` (round end does not advance it), so invoking the `ranking`
algorithm for the round-2 assignment at that state silently falls back to
`random`.  With the eight scenario players presented in the order
E,F,G,H,A,B,C,D and a shuffle outcome equal to the identity (a legal
outcome of `random.shuffle`), table 1 is {E,F,G,H} — not a permutation of
{A,B,C,D}. -/
theorem scenario_ranking_falls_back_counterexample :
    effective_algorithm 1 "ranking" = "random" ∧
    auto_assign_groups id 1 "ranking" playersEightShuffled =
      [[plainPlayer "E" 0 none, plainPlayer "F" 0 none,
        plainPlayer "G" 0 none, plainPlayer "H" 0 none],
       [plainPlayer "A" 3 none, plainPlayer "B" 2 none,
        plainPlayer "C" 2 none, plainPlayer "D" 1 none]] ∧
    ¬ ((auto_assign_groups id 1 "ranking" playersEightShuffled).getD 0
        []).Perm
        [plainPlayer "A" 3 none, plainPlayer "B" 2 none,
         plainPlayer "C" 2 none, plainPlayer "D" 1 none] := by
  refine ⟨by decide, by decide, by decide⟩

/-- C4 amended.  In the scenario state (round 1 completed,
`currentRound = 1`), invoking the `ranking` algorithm falls back to
`random`; when the assignment is invoked with `currentRound ≥ 2` (so the
round-1 guard does not trigger), the `ranking` algorithm deterministically
seats A,B,C,D at table 1 and E,F,G,H at table 2, whatever order the eight
players are presented in and whatever the shuffle is. -/
theorem scenario_ranking_assignment (shuffle : List Player → List Player)
    (l : List Player) (hperm : l.Perm playersEight) :
    effective_algorithm 1 "ranking" = "random" ∧
    effective_algorithm 2 "ranking" = "ranking" ∧
    auto_assign_groups shuffle 2 "ranking" l =
      [[plainPlayer "A" 3 none, plainPlayer "B" 2 none,
        plainPlayer "C" 2 none, plainPlayer "D" 1 none],
       [plainPlayer "E" 0 none, plainPlayer "F" 0 none,
        plainPlayer "G" 0 none, plainPlayer "H" 0 none]] := by
  refine ⟨by decide, by decide, ?_⟩
  have hlen : l.length = 8 := hperm.length_eq.trans (by decide)
  have hsorted : sort_players_by_ranking l = playersEight := by
    have hp1 : (sort_players_by_ranking l).Perm playersEight :=
      (List.perm_insertionSort rankKeyLE l).trans hperm
    have hpw2 : playersEight.Pairwise (fun p q => keyR p < keyR q) := by
      decide
    have hne : (sort_players_by_ranking l).Pairwise
        (fun p q => keyR p ≠ keyR q) := by
      refine (List.Perm.pairwise_iff (fun h => h.symm) hp1).mpr ?_
      exact hpw2.imp (fun h => ne_of_lt h)
    have hpw1 : (sort_players_by_ranking l).Pairwise
        (fun p q => keyR p < keyR q) := by
      have hs : (sort_players_by_ranking l).Pairwise rankKeyLE :=
        List.sorted_insertionSort rankKeyLE l
      exact (hs.and hne).imp (fun h => lt_of_le_of_ne h.1 h.2)
    exact sorted_key_unique keyR hp1 hpw1 hpw2
  have htoA : l.take (l.length / 4 * 4) = l := by
    rw [hlen]
    exact List.take_all_of_le (by rw [hlen])
  have heq : auto_assign_groups shuffle 2 "ranking" l =
      chunksOf4 (l.length / 4)
        (sort_players_by_ranking (l.take (l.length / 4 * 4))) := by
    simp [auto_assign_groups, effective_algorithm, assign_by_algorithm]
  rw [heq, htoA, hsorted, hlen]
  decide

/-- C4 amended witness: the scenario theorem applied to the eight players
presented in the order E,F,G,H,A,B,C,D with the identity shuffle. -/
theorem scenario_ranking_assignment_witness :
    playersEightShuffled.Perm playersEight ∧
    (effective_algorithm 1 "ranking" = "random" ∧
     effective_algorithm 2 "ranking" = "ranking" ∧
     auto_assign_groups id 2 "ranking" playersEightShuffled =
       [[plainPlayer "A" 3 none, plainPlayer "B" 2 none,
         plainPlayer "C" 2 none, plainPlayer "D" 1 none],
        [plainPlayer "E" 0 none, plainPlayer "F" 0 none,
         plainPlayer "G" 0 none, plainPlayer "H" 0 none]]) :=
  ⟨by decide, scenario_ranking_assignment id playersEightShuffled (by decide)⟩

/-! ### The five-criteria ranking -/

/-- The spec-worded strict ranking relation coincides with the strict
order on the code's sort key. -/
theorem specRankLT_iff_key5_lt (s : TournamentState) (p q : Player) :
    specRankLT s p q ↔ key5 s p < key5 s q := by
  unfold specRankLT key5
  simp only [Prod.Lex.lt_iff, neg_lt_neg_iff, neg_inj, gt_iff_lt]

/-- Equal sort keys force equal names (the name is the key's last
component). -/
theorem name_eq_of_key5_eq (s : TournamentState) (p q : Player)
    (h : key5 s p = key5 s q) : p.name = q.name :=
  congrArg (fun k => (ofLex (ofLex (ofLex (ofLex k).2).2).2).2) h

/-- C1 amended.  For every tournament state whose active players have
pairwise distinct names and whose stored score events carry round numbers
`≥ 1` when present (the §3 data-model invariant), `rankedPlayers` is a
permutation of the active players (eliminated players appear nowhere),
pairwise ordered by: tournament score descending, then last-completed
round score descending (`0` for every player when no round has
completed), then last-win timestamp descending *with a missing
`lastWinAt` encoded as timestamp `0`* (so a player who has never won
sorts after every player whose last win has a positive timestamp, but
ties with a hypothetical last win at exactly the epoch and falls to the
later criteria), then table round score descending, then name ascending;
and for any two distinct active players exactly one sorts before the
other. -/
theorem ranking_spec (s : TournamentState)
    (hnames : (activePlayers s).Pairwise (fun p q => p.name ≠ q.name))
    (hwf : ∀ p ∈ s.players, ∀ e ∈ p.scoreEvents, e.roundNumber ≠ some 0) :
    (rankedPlayers s).Perm (activePlayers s) ∧
    (∀ p ∈ rankedPlayers s, p.eliminated = false) ∧
    (rankedPlayers s).Pairwise (specRankLT s) ∧
    (lastCompletedRound s = 0 → ∀ p ∈ activePlayers s,
      roundScore (roundsMult s) (lastCompletedRound s) p = 0) ∧
    (∀ p ∈ activePlayers s, ∀ q ∈ activePlayers s, p ≠ q →
      (specRankLT s p q ↔ ¬ specRankLT s q p)) := by
  have hperm : (rankedPlayers s).Perm (activePlayers s) :=
    List.perm_insertionSort _ _
  have hnames' : ∀ p ∈ activePlayers s, ∀ q ∈ activePlayers s, p ≠ q →
      p.name ≠ q.name := by
    intro p hp q hq hne
    exact List.Pairwise.forall (fun _ _ h => Ne.symm h) hnames hp hq hne
  refine ⟨hperm, ?_, ?_, ?_, ?_⟩
  · intro p hp
    have h1 := List.mem_filter.mp (hperm.mem_iff.mp hp)
    simpa using h1.2
  · have hsorted : (rankedPlayers s).Pairwise (rankLE s) :=
      List.sorted_insertionSort (rankLE s) (activePlayers s)
    have hne : (rankedPlayers s).Pairwise (fun p q => p.name ≠ q.name) :=
      (List.Perm.pairwise_iff (fun h => Ne.symm h) hperm).mpr hnames
    refine (hsorted.and hne).imp ?_
    rintro p q ⟨hle, hnepq⟩
    rw [specRankLT_iff_key5_lt]
    exact lt_of_le_of_ne hle (fun h => hnepq (name_eq_of_key5_eq s p q h))
  · intro h0 p hp
    rw [roundScore]
    have hfilter : p.scoreEvents.filter
        (fun e => e.roundNumber = some (lastCompletedRound s)) = [] := by
      refine List.filter_eq_nil.mpr (fun e he => ?_)
      have hpP : p ∈ s.players := (List.mem_filter.mp hp).1
      have h2 := hwf p hpP e he
      rw [h0]
      simpa using h2
    rw [hfilter]
    rfl
  · intro p hp q hq hne
    have hkne : key5 s p ≠ key5 s q :=
      fun h => hnames' p hp q hq hne (name_eq_of_key5_eq s p q h)
    constructor
    · intro h1 h2
      rw [specRankLT_iff_key5_lt] at h1 h2
      exact absurd h1 (not_lt.mpr h2.le)
    · intro h2
      rw [specRankLT_iff_key5_lt] at h2 ⊢
      rcases lt_or_gt_of_ne hkne with h | h
      · exact h
      · exact absurd h h2

/-- C1 fails as literally stated: the code encodes "never won" as the
sentinel timestamp `0` (`db_debug_olivia.py`, line 162), so a player
whose recorded last win is at the epoch (timestamp `0`) ties with a
player who has never won, and the tie falls through to the name
criterion.  In `stEpoch`, `B` has won (at timestamp `0`) and `A` has
never won, all scores are equal, yet the ranking places `A` before `B` —
the never-won player does *not* sort after the player who has won. -/
theorem ranking_claim_counterexample :
    (activePlayers stEpoch).Pairwise (fun p q => p.name ≠ q.name) ∧
    (∀ p ∈ stEpoch.players, ∀ e ∈ p.scoreEvents, e.roundNumber ≠ some 0) ∧
    (rankedPlayers stEpoch).map Player.name = ["A".data, "B".data] ∧
    ¬ (rankedPlayers stEpoch).Pairwise (claimRankLT stEpoch) := by
  refine ⟨by decide, by decide, by decide, by decide⟩

/-- C1 amended witness: the ranking theorem applied to the four-player
fixture. -/
theorem ranking_spec_witness :
    ((activePlayers stFour).Pairwise (fun p q => p.name ≠ q.name) ∧
     (∀ p ∈ stFour.players, ∀ e ∈ p.scoreEvents, e.roundNumber ≠ some 0)) ∧
    ((rankedPlayers stFour).Perm (activePlayers stFour) ∧
     (∀ p ∈ rankedPlayers stFour, p.eliminated = false) ∧
     (rankedPlayers stFour).Pairwise (specRankLT stFour) ∧
     (lastCompletedRound stFour = 0 → ∀ p ∈ activePlayers stFour,
       roundScore (roundsMult stFour) (lastCompletedRound stFour) p = 0) ∧
     (∀ p ∈ activePlayers stFour, ∀ q ∈ activePlayers stFour, p ≠ q →
       (specRankLT stFour p q ↔ ¬ specRankLT stFour q p))) :=
  ⟨⟨by decide, by decide⟩, ranking_spec stFour (by decide) (by decide)⟩

end SpeedJong
